import Mathlib

/-!
# Structural-feature engine: CSR triangle counters

Shallow embedding of `structfeatures/core.py`: the CSR neighbourhood
accessor `get_neigh`, the undirected local triangle counter
`_count_number_local_triangles`, and the directed triangle-motif counter
`_count_number_triangles_directed`.  CSR arrays of int64 are embedded as
`List ℕ` (all values handled by the counters are non-negative node ids and
offsets); numpy slicing `indices[a:b]` is `((indices.drop a).take (b - a))`,
which, like numpy, clips out-of-range and inverted bounds to the empty
slice.  Python `set` objects are embedded as `Finset ℕ` for membership
tests; iteration over a set, whose order is unspecified in the source but
irrelevant there (the loop body only increments commuting counters), is
embedded as iteration over the deduplicated slice.
-/

namespace Structfeatures

/-- `get_neigh(node, indices, indptr)` from core.py:
the CSR slice `indices[indptr[node] : indptr[node + 1]]`. -/
def get_neigh (node : ℕ) (indices indptr : List ℕ) : List ℕ :=
  (indices.drop (indptr.getD node 0)).take
    (indptr.getD (node + 1) 0 - indptr.getD node 0)

/-- Loop body shared by the two outer loops of
`_count_number_triangles_directed`: given the egonet pair and a current
counter pair `acc`, scan the out-neighbour slice of `w`, skip entries equal
to `v`, and bump the first counter on membership in `fstSet` and the second
on membership in `sndSet` (in the source: `out/cycle` in the first loop,
`middleman/in` in the second). -/
def motifLoop (v : ℕ) (fstSet sndSet : Finset ℕ)
    (out_indices out_indptr : List ℕ) (acc : ℕ × ℕ) (w : ℕ) : ℕ × ℕ :=
  (get_neigh w out_indices out_indptr).foldl
    (fun p x =>
      if x = v then p
      else ((if x ∈ fstSet then p.1 + 1 else p.1),
            (if x ∈ sndSet then p.2 + 1 else p.2)))
    acc

/-- Body of the `prange` loop of `_count_number_triangles_directed` for one
node `v`: returns `(out, in, cycle, middleman)` counts for `v`. -/
def nodeDirected (out_indices out_indptr in_indices in_indptr : List ℕ)
    (v : ℕ) : ℕ × ℕ × ℕ × ℕ :=
  let out_egonet := (get_neigh v out_indices out_indptr).toFinset
  let in_egonet := (get_neigh v in_indices in_indptr).toFinset
  let oc := (get_neigh v out_indices out_indptr).dedup.foldl
    (motifLoop v out_egonet in_egonet out_indices out_indptr) (0, 0)
  let mi := (get_neigh v in_indices in_indptr).dedup.foldl
    (motifLoop v out_egonet in_egonet out_indices out_indptr) (0, 0)
  (oc.1, mi.2, oc.2, mi.1)

/-- `_count_number_triangles_directed` from core.py: per-node out-, in-,
cycle- and middleman-triangle counts, each a length-`len(out_indptr) - 1`
array. -/
def _count_number_triangles_directed
    (out_indices out_indptr in_indices in_indptr : List ℕ) :
    List ℕ × List ℕ × List ℕ × List ℕ :=
  let N := out_indptr.length - 1
  ((List.range N).map fun v =>
      (nodeDirected out_indices out_indptr in_indices in_indptr v).1,
   (List.range N).map fun v =>
      (nodeDirected out_indices out_indptr in_indices in_indptr v).2.1,
   (List.range N).map fun v =>
      (nodeDirected out_indices out_indptr in_indices in_indptr v).2.2.1,
   (List.range N).map fun v =>
      (nodeDirected out_indices out_indptr in_indices in_indptr v).2.2.2)

/-- Body of the `prange` loop of `_count_number_local_triangles` for one
node `v`: iterate over the deduplicated neighbour set, and for each member
`u` scan the raw neighbour slice of `u`, counting entries that lie in the
egonet (no `x == v` or `u == v` exclusion). -/
def nodeLocal (indices indptr : List ℕ) (v : ℕ) : ℕ :=
  let egonet := (get_neigh v indices indptr).toFinset
  (get_neigh v indices indptr).dedup.foldl
    (fun acc u =>
      (get_neigh u indices indptr).foldl
        (fun n x => if x ∈ egonet then n + 1 else n) acc)
    0

/-- `_count_number_local_triangles` from core.py: per-node ordered
(neighbour, neighbour-of-neighbour) pair counts, a length-`len(indptr) - 1`
array. -/
def _count_number_local_triangles (indices indptr : List ℕ) : List ℕ :=
  (List.range (indptr.length - 1)).map (nodeLocal indices indptr)

/-- Well-formedness of one CSR structure over `N` nodes: `indptr` has
`N + 1` entries and is non-decreasing, and every `indices` entry is a node
id below `N`. -/
def ValidCSR (N : ℕ) (indices indptr : List ℕ) : Prop :=
  indptr.length = N + 1 ∧ List.Pairwise (· ≤ ·) indptr ∧ ∀ i ∈ indices, i < N

instance (N : ℕ) (indices indptr : List ℕ) :
    Decidable (ValidCSR N indices indptr) :=
  inferInstanceAs (Decidable
    (indptr.length = N + 1 ∧ List.Pairwise (· ≤ ·) indptr ∧
      ∀ i ∈ indices, i < N))

/-- Coherent CSR: well-formed, with `indptr` starting at 0 and ending at
`len(indices)` (the closure conditions needed to splice two CSR
structures together). -/
def CoherentCSR (N : ℕ) (indices indptr : List ℕ) : Prop :=
  ValidCSR N indices indptr ∧ indptr.getD 0 0 = 0 ∧
    indptr.getD N 0 = indices.length

instance (N : ℕ) (indices indptr : List ℕ) :
    Decidable (CoherentCSR N indices indptr) :=
  inferInstanceAs (Decidable (ValidCSR N indices indptr ∧
    indptr.getD 0 0 = 0 ∧ indptr.getD N 0 = indices.length))

/-- `indices` array of the disjoint union of a CSR graph over `N` nodes
with a copy of itself (the spec's scaling test): the copy's node ids are
offset by `N`. -/
def unionIndices (indices : List ℕ) (N : ℕ) : List ℕ :=
  indices ++ indices.map (· + N)

/-- `indptr` array of the disjoint union of a CSR graph with itself: the
copy's row boundaries continue from `E = len(indices)`. -/
def unionIndptr (indptr : List ℕ) (E : ℕ) : List ℕ :=
  indptr ++ (indptr.drop 1).map (· + E)

/-! ## Spec-side counting formulas

Direct transcriptions of §4.2/§4.3 of the specification: per-node counts
expressed as sums, over the deduplicated egonet, of multiplicity-respecting
counts over raw neighbour slices. -/

/-- Spec §4.3: `out_egonet(v)` = deduplicated set of out-neighbours. -/
def out_egonet (out_indices out_indptr : List ℕ) (v : ℕ) : Finset ℕ :=
  (get_neigh v out_indices out_indptr).toFinset

/-- Spec §4.3: `in_egonet(v)` = deduplicated set of in-neighbours. -/
def in_egonet (in_indices in_indptr : List ℕ) (v : ℕ) : Finset ℕ :=
  (get_neigh v in_indices in_indptr).toFinset

/-- Spec §4.3 counting rule: the number of pairs `(w, x)` with `w` in
`outer`, `x` an entry (with multiplicity) of the out-neighbour slice of
`w`, `x ≠ v`, and `x ∈ member`. -/
def motifCount (out_indices out_indptr : List ℕ) (v : ℕ)
    (outer member : Finset ℕ) : ℕ :=
  Finset.sum outer fun w =>
    (get_neigh w out_indices out_indptr).countP
      fun x => !decide (x = v) && decide (x ∈ member)

/-- Spec §4.2 counting rule: the number of pairs `(u, x)` with `u` in the
deduplicated neighbour set of `v` and `x` an entry (with multiplicity) of
the raw neighbour slice of `u` that also lies in that set; no `u = v` or
`x = v` exclusion. -/
def localCount (indices indptr : List ℕ) (v : ℕ) : ℕ :=
  Finset.sum (get_neigh v indices indptr).toFinset fun u =>
    (get_neigh u indices indptr).countP
      fun x => decide (x ∈ (get_neigh v indices indptr).toFinset)

/-! ## Scheduling and state model

The source runs the per-node loops under `nb.prange` with `parallel=True`:
each node's counters are computed from the read-only input arrays and
written to the disjoint result slot(s) of that node.  We model an
execution schedule as the list of node ids in the order their iterations
commit their writes; a partition of the node range across workers is a
particular such list.  The machine states below carry the input arrays
through the run so that (non-)mutation of the inputs is observable. -/

/-- Run the per-node computation `f` over the schedule `ord`, each step
writing `f v` into slot `v` of the result buffer (a write to a slot beyond
the buffer is impossible in a run over valid node ids; `List.set` ignores
it). -/
def runSchedule {α : Type} (f : ℕ → α) (init : List α) (ord : List ℕ) :
    List α :=
  ord.foldl (fun acc v => acc.set v (f v)) init

/-- State of a `_count_number_local_triangles` run: the two borrowed input
arrays and the result buffer. -/
structure LocalState where
  indices : List ℕ
  indptr : List ℕ
  result : List ℕ

/-- One `prange` iteration of `_count_number_local_triangles`: read-only
use of the inputs, one write to the node's result slot. -/
def localStep (s : LocalState) (v : ℕ) : LocalState :=
  { s with result := s.result.set v (nodeLocal s.indices s.indptr v) }

/-- Run `_count_number_local_triangles` with iterations committed in the
order `ord`, starting from the freshly zero-allocated result buffer. -/
def localRunOn (indices indptr : List ℕ) (ord : List ℕ) : LocalState :=
  ord.foldl localStep
    ⟨indices, indptr, List.replicate (indptr.length - 1) 0⟩

/-- The sequential-order run of `_count_number_local_triangles`. -/
def localRun (indices indptr : List ℕ) : LocalState :=
  localRunOn indices indptr (List.range (indptr.length - 1))

/-- State of a `_count_number_triangles_directed` run: the four borrowed
input arrays and the four result buffers. -/
structure DirectedState where
  out_indices : List ℕ
  out_indptr : List ℕ
  in_indices : List ℕ
  in_indptr : List ℕ
  out_triangles : List ℕ
  in_triangles : List ℕ
  cycle_triangles : List ℕ
  middleman_triangles : List ℕ

/-- One `prange` iteration of `_count_number_triangles_directed`:
read-only use of the inputs, one write to the node's slot of each of the
four result buffers. -/
def directedStep (s : DirectedState) (v : ℕ) : DirectedState :=
  let c := nodeDirected s.out_indices s.out_indptr s.in_indices s.in_indptr v
  { s with
    out_triangles := s.out_triangles.set v c.1,
    in_triangles := s.in_triangles.set v c.2.1,
    cycle_triangles := s.cycle_triangles.set v c.2.2.1,
    middleman_triangles := s.middleman_triangles.set v c.2.2.2 }

/-- Run `_count_number_triangles_directed` with iterations committed in
the order `ord`, starting from freshly zero-allocated result buffers. -/
def directedRunOn (out_indices out_indptr in_indices in_indptr : List ℕ)
    (ord : List ℕ) : DirectedState :=
  ord.foldl directedStep
    ⟨out_indices, out_indptr, in_indices, in_indptr,
     List.replicate (out_indptr.length - 1) 0,
     List.replicate (out_indptr.length - 1) 0,
     List.replicate (out_indptr.length - 1) 0,
     List.replicate (out_indptr.length - 1) 0⟩

/-- The sequential-order run of `_count_number_triangles_directed`. -/
def directedRun (out_indices out_indptr in_indices in_indptr : List ℕ) :
    DirectedState :=
  directedRunOn out_indices out_indptr in_indices in_indptr
    (List.range (out_indptr.length - 1))

/-! ## Bridge lemmas: the imperative folds compute the spec-side sums -/

lemma foldl_count (p : ℕ → Prop) [DecidablePred p] :
    ∀ (l : List ℕ) (a : ℕ),
      l.foldl (fun n x => if p x then n + 1 else n) a =
        a + l.countP (fun x => decide (p x))
  | [], a => by simp
  | x :: l, a => by
    by_cases h : p x
    · simp [List.countP_cons, h, foldl_count p l]
      omega
    · simp [List.countP_cons, h, foldl_count p l]

lemma foldl_motifBody (v : ℕ) (fstSet sndSet : Finset ℕ) :
    ∀ (l : List ℕ) (acc : ℕ × ℕ),
      l.foldl (fun p x => if x = v then p
          else ((if x ∈ fstSet then p.1 + 1 else p.1),
                (if x ∈ sndSet then p.2 + 1 else p.2))) acc =
        (acc.1 + l.countP (fun x => !decide (x = v) && decide (x ∈ fstSet)),
         acc.2 + l.countP (fun x => !decide (x = v) && decide (x ∈ sndSet)))
  | [], acc => by simp
  | x :: l, acc => by
    by_cases hv : x = v
    · simp [List.countP_cons, hv, foldl_motifBody v fstSet sndSet l]
    · by_cases h1 : x ∈ fstSet <;> by_cases h2 : x ∈ sndSet <;>
        simp [List.countP_cons, hv, h1, h2,
          foldl_motifBody v fstSet sndSet l] <;> omega

lemma motifLoop_eq (v : ℕ) (fstSet sndSet : Finset ℕ)
    (out_indices out_indptr : List ℕ) (acc : ℕ × ℕ) (w : ℕ) :
    motifLoop v fstSet sndSet out_indices out_indptr acc w =
      (acc.1 + (get_neigh w out_indices out_indptr).countP
          (fun x => !decide (x = v) && decide (x ∈ fstSet)),
       acc.2 + (get_neigh w out_indices out_indptr).countP
          (fun x => !decide (x = v) && decide (x ∈ sndSet))) :=
  foldl_motifBody v fstSet sndSet (get_neigh w out_indices out_indptr) acc

lemma foldl_motifLoop (v : ℕ) (fstSet sndSet : Finset ℕ)
    (out_indices out_indptr : List ℕ) :
    ∀ (l : List ℕ) (acc : ℕ × ℕ),
      l.foldl (motifLoop v fstSet sndSet out_indices out_indptr) acc =
        (acc.1 + (l.map fun w => (get_neigh w out_indices out_indptr).countP
            (fun x => !decide (x = v) && decide (x ∈ fstSet))).sum,
         acc.2 + (l.map fun w => (get_neigh w out_indices out_indptr).countP
            (fun x => !decide (x = v) && decide (x ∈ sndSet))).sum)
  | [], acc => by simp
  | w :: l, acc => by
    rw [List.foldl_cons, motifLoop_eq,
      foldl_motifLoop v fstSet sndSet out_indices out_indptr l]
    simp [add_assoc]

lemma foldl_localLoop (egonet : Finset ℕ) (indices indptr : List ℕ) :
    ∀ (l : List ℕ) (a : ℕ),
      l.foldl (fun acc u => (get_neigh u indices indptr).foldl
          (fun n x => if x ∈ egonet then n + 1 else n) acc) a =
        a + (l.map fun u => (get_neigh u indices indptr).countP
            (fun x => decide (x ∈ egonet))).sum
  | [], a => by simp
  | u :: l, a => by
    rw [List.foldl_cons, foldl_count (· ∈ egonet),
      foldl_localLoop egonet indices indptr l]
    simp [add_assoc]

lemma sum_dedup (l : List ℕ) (f : ℕ → ℕ) :
    (l.dedup.map f).sum = Finset.sum l.toFinset f := by
  rw [Finset.sum, List.toFinset_val, Multiset.map_coe, Multiset.sum_coe]

/-- The per-node loop body of `_count_number_local_triangles` computes the
spec-side §4.2 count. -/
lemma nodeLocal_eq (indices indptr : List ℕ) (v : ℕ) :
    nodeLocal indices indptr v = localCount indices indptr v := by
  unfold nodeLocal localCount
  rw [foldl_localLoop, sum_dedup, Nat.zero_add]

/-- The per-node loop body of `_count_number_triangles_directed` computes
the four spec-side §4.3 counts, in the order (out, in, cycle, middleman). -/
lemma nodeDirected_eq (out_indices out_indptr in_indices in_indptr : List ℕ)
    (v : ℕ) :
    nodeDirected out_indices out_indptr in_indices in_indptr v =
      (motifCount out_indices out_indptr v
        (out_egonet out_indices out_indptr v)
        (out_egonet out_indices out_indptr v),
       motifCount out_indices out_indptr v
        (in_egonet in_indices in_indptr v)
        (in_egonet in_indices in_indptr v),
       motifCount out_indices out_indptr v
        (out_egonet out_indices out_indptr v)
        (in_egonet in_indices in_indptr v),
       motifCount out_indices out_indptr v
        (in_egonet in_indices in_indptr v)
        (out_egonet out_indices out_indptr v)) := by
  unfold nodeDirected motifCount out_egonet in_egonet
  simp only [foldl_motifLoop]
  simp [sum_dedup]

/-! ## CSR bound and slice lemmas -/

lemma indptr_mono (indptr : List ℕ) (hp : List.Pairwise (· ≤ ·) indptr)
    {i j : ℕ} (hij : i ≤ j) (hj : j < indptr.length) :
    indptr.getD i 0 ≤ indptr.getD j 0 := by
  rcases Nat.lt_or_ge i j with hlt | hge
  · have hi : i < indptr.length := Nat.lt_trans hlt hj
    rw [List.getD_eq_getElem indptr 0 hi, List.getD_eq_getElem indptr 0 hj]
    exact List.pairwise_iff_getElem.mp hp i j hi hj hlt
  · rw [Nat.le_antisymm hij hge]

lemma indptr_le_length (indptr indices : List ℕ) (N : ℕ)
    (hlen : indptr.length = N + 1) (hp : List.Pairwise (· ≤ ·) indptr)
    (hlast : indptr.getD N 0 = indices.length) {k : ℕ} (hk : k ≤ N) :
    indptr.getD k 0 ≤ indices.length := by
  rw [← hlast]
  exact indptr_mono indptr hp hk (by omega)

lemma get_neigh_subset (v : ℕ) (indices indptr : List ℕ) :
    ∀ x ∈ get_neigh v indices indptr, x ∈ indices := by
  intro x hx
  unfold get_neigh at hx
  exact List.drop_subset _ _ (List.take_subset _ _ hx)

lemma take_drop_append (l1 l2 : List ℕ) (a k : ℕ) (h : a + k ≤ l1.length) :
    ((l1 ++ l2).drop a).take k = (l1.drop a).take k := by
  have h2 : k ≤ (l1.drop a).length := by
    rw [List.length_drop]
    omega
  rw [List.drop_append_eq_append_drop, List.take_append_eq_append_take,
    Nat.sub_eq_zero_of_le h2, List.take_zero, List.append_nil]

lemma getD_append_left (l1 l2 : List ℕ) (k : ℕ) (h : k < l1.length) :
    (l1 ++ l2).getD k 0 = l1.getD k 0 := by
  rw [List.getD_eq_getElem?_getD, List.getD_eq_getElem?_getD,
    List.getElem?_append_left h]

/-- Appending past a well-formed CSR does not change any in-range
neighbourhood slice. -/
lemma get_neigh_append (indices indptr extI extP : List ℕ) (N v : ℕ)
    (hlen : indptr.length = N + 1) (hp : List.Pairwise (· ≤ ·) indptr)
    (hlast : indptr.getD N 0 = indices.length) (hv : v < N) :
    get_neigh v (indices ++ extI) (indptr ++ extP) =
      get_neigh v indices indptr := by
  unfold get_neigh
  rw [getD_append_left _ _ v (by omega), getD_append_left _ _ (v + 1) (by omega)]
  refine take_drop_append indices extI _ _ ?_
  have h1 := indptr_le_length indptr indices N hlen hp hlast (k := v) (by omega)
  have h2 := indptr_le_length indptr indices N hlen hp hlast (k := v + 1)
    (by omega)
  omega

/-- `nodeDirected` reads the in-CSR only through the single slice
`get_neigh v in_indices in_indptr`. -/
lemma nodeDirected_congr_in
    (out_indices out_indptr in_indices in_indptr ii ip : List ℕ) (v : ℕ)
    (h : get_neigh v ii ip = get_neigh v in_indices in_indptr) :
    nodeDirected out_indices out_indptr ii ip v =
      nodeDirected out_indices out_indptr in_indices in_indptr v := by
  unfold nodeDirected
  rw [h]

/-! ## Schedule lemmas: disjoint writes make the order irrelevant -/

lemma runSchedule_length {α : Type} (f : ℕ → α) :
    ∀ (ord : List ℕ) (init : List α),
      (runSchedule f init ord).length = init.length
  | [], _ => rfl
  | v :: ord, init => by
    show (runSchedule f (init.set v (f v)) ord).length = init.length
    rw [runSchedule_length f ord, List.length_set]

lemma runSchedule_getElem_not_mem {α : Type} (f : ℕ → α) :
    ∀ (ord : List ℕ) (init : List α) (j : ℕ), j ∉ ord →
      (runSchedule f init ord)[j]? = init[j]?
  | [], _, _, _ => rfl
  | v :: ord, init, j, h => by
    have hvj : v ≠ j := fun e => h (e ▸ List.mem_cons_self v ord)
    show (runSchedule f (init.set v (f v)) ord)[j]? = init[j]?
    rw [runSchedule_getElem_not_mem f ord _ j
        (fun hj => h (List.mem_cons_of_mem v hj)),
      List.getElem?_set_ne hvj]

lemma runSchedule_getElem_mem {α : Type} (f : ℕ → α) :
    ∀ (ord : List ℕ) (init : List α) (j : ℕ),
      j < init.length → j ∈ ord →
      (runSchedule f init ord)[j]? = some (f j)
  | [], _, j, _, hj => absurd hj (List.not_mem_nil j)
  | v :: ord, init, j, hlen, hj => by
    show (runSchedule f (init.set v (f v)) ord)[j]? = some (f j)
    by_cases hmem : j ∈ ord
    · exact runSchedule_getElem_mem f ord _ j (by simpa using hlen) hmem
    · have hjv : j = v := by
        rcases List.mem_cons.mp hj with h | h
        · exact h
        · exact absurd h hmem
      subst hjv
      rw [runSchedule_getElem_not_mem f ord _ j hmem,
        List.getElem?_set_self hlen]

/-- A schedule that reaches every node id below `N` produces, from the
zero-initialised buffer, exactly the array of per-node values. -/
lemma runSchedule_covers {α : Type} (f : ℕ → α) (N : ℕ) (z : α)
    (ord : List ℕ) (h : ∀ v, v < N → v ∈ ord) :
    runSchedule f (List.replicate N z) ord = (List.range N).map f := by
  apply List.ext_getElem?
  intro n
  by_cases hn : n < N
  · rw [runSchedule_getElem_mem f ord _ n (by simpa using hn) (h n hn),
      List.getElem?_map, List.getElem?_range hn, Option.map_some']
  · rw [List.getElem?_eq_none, List.getElem?_eq_none]
    · simpa using Nat.le_of_not_lt hn
    · rw [runSchedule_length]
      simpa using Nat.le_of_not_lt hn

lemma foldl_localStep :
    ∀ (ord : List ℕ) (s : LocalState),
      ord.foldl localStep s =
        ⟨s.indices, s.indptr,
          runSchedule (nodeLocal s.indices s.indptr) s.result ord⟩
  | [], s => rfl
  | v :: ord, s => by
    show ord.foldl localStep (localStep s v) = _
    rw [foldl_localStep ord (localStep s v)]
    rfl

lemma foldl_directedStep :
    ∀ (ord : List ℕ) (s : DirectedState),
      ord.foldl directedStep s =
        ⟨s.out_indices, s.out_indptr, s.in_indices, s.in_indptr,
          runSchedule (fun v => (nodeDirected s.out_indices s.out_indptr
            s.in_indices s.in_indptr v).1) s.out_triangles ord,
          runSchedule (fun v => (nodeDirected s.out_indices s.out_indptr
            s.in_indices s.in_indptr v).2.1) s.in_triangles ord,
          runSchedule (fun v => (nodeDirected s.out_indices s.out_indptr
            s.in_indices s.in_indptr v).2.2.1) s.cycle_triangles ord,
          runSchedule (fun v => (nodeDirected s.out_indices s.out_indptr
            s.in_indices s.in_indptr v).2.2.2) s.middleman_triangles ord⟩
  | [], s => rfl
  | v :: ord, s => by
    show ord.foldl directedStep (directedStep s v) = _
    rw [foldl_directedStep ord (directedStep s v)]
    rfl

/-- C1: on every valid CSR pair over `N = len(out_indptr) - 1` nodes,
`_count_number_triangles_directed` returns four length-`N` arrays whose
`v`-th entries are, in order, the number of pairs `(w, x)` with `w` in the
deduplicated out-neighbour set of `v`, `x` an entry (with multiplicity) of
the out-neighbour slice of `w`, `x ≠ v`, and `x` in the out-egonet
(out-triangles); the same pairs `(y, z)` over the in-egonet with `z` in the
in-egonet (in-triangles); the pairs `(w, x)` with `x` in the in-egonet
(cycle-triangles); and the pairs `(y, z)` with `z` in the out-egonet
(middleman-triangles). -/
theorem directed_motifs_match_spec
    (out_indices out_indptr in_indices in_indptr : List ℕ) (N : ℕ)
    (ho : ValidCSR N out_indices out_indptr)
    (_hi : ValidCSR N in_indices in_indptr) :
    _count_number_triangles_directed out_indices out_indptr
        in_indices in_indptr =
      ((List.range N).map fun v => motifCount out_indices out_indptr v
          (out_egonet out_indices out_indptr v)
          (out_egonet out_indices out_indptr v),
       (List.range N).map fun v => motifCount out_indices out_indptr v
          (in_egonet in_indices in_indptr v)
          (in_egonet in_indices in_indptr v),
       (List.range N).map fun v => motifCount out_indices out_indptr v
          (out_egonet out_indices out_indptr v)
          (in_egonet in_indices in_indptr v),
       (List.range N).map fun v => motifCount out_indices out_indptr v
          (in_egonet in_indices in_indptr v)
          (out_egonet out_indices out_indptr v)) := by
  obtain ⟨hlen, -, -⟩ := ho
  unfold _count_number_triangles_directed
  rw [hlen]
  simp [nodeDirected_eq]

/-- Witness for C1: the directed triangle `0→1, 0→2, 1→2` as a valid
transpose-consistent CSR pair over 3 nodes. -/
theorem directed_motifs_match_spec_witness :
    ValidCSR 3 [1, 2, 2] [0, 2, 3, 3] ∧ ValidCSR 3 [0, 0, 1] [0, 0, 1, 3] ∧
      _count_number_triangles_directed [1, 2, 2] [0, 2, 3, 3]
          [0, 0, 1] [0, 0, 1, 3] =
        ((List.range 3).map fun v => motifCount [1, 2, 2] [0, 2, 3, 3] v
            (out_egonet [1, 2, 2] [0, 2, 3, 3] v)
            (out_egonet [1, 2, 2] [0, 2, 3, 3] v),
         (List.range 3).map fun v => motifCount [1, 2, 2] [0, 2, 3, 3] v
            (in_egonet [0, 0, 1] [0, 0, 1, 3] v)
            (in_egonet [0, 0, 1] [0, 0, 1, 3] v),
         (List.range 3).map fun v => motifCount [1, 2, 2] [0, 2, 3, 3] v
            (out_egonet [1, 2, 2] [0, 2, 3, 3] v)
            (in_egonet [0, 0, 1] [0, 0, 1, 3] v),
         (List.range 3).map fun v => motifCount [1, 2, 2] [0, 2, 3, 3] v
            (in_egonet [0, 0, 1] [0, 0, 1, 3] v)
            (out_egonet [1, 2, 2] [0, 2, 3, 3] v)) :=
  ⟨by decide, by decide,
    directed_motifs_match_spec [1, 2, 2] [0, 2, 3, 3] [0, 0, 1] [0, 0, 1, 3] 3
      (by decide) (by decide)⟩

/-- C2: on every valid CSR over `N = len(indptr) - 1` nodes,
`_count_number_local_triangles` returns a length-`N` array whose `v`-th
entry is the number of ordered pairs `(u, x)` with `u` in the deduplicated
neighbour set of `v` and `x` an entry (with multiplicity) of the raw
neighbour slice of `u` lying in that set; no `u = v` or `x = v` exclusion
is performed. -/
theorem local_triangles_match_spec (indices indptr : List ℕ) (N : ℕ)
    (h : ValidCSR N indices indptr) :
    _count_number_local_triangles indices indptr =
      (List.range N).map (localCount indices indptr) := by
  obtain ⟨hlen, -, -⟩ := h
  unfold _count_number_local_triangles
  rw [hlen]
  simp [nodeLocal_eq]

/-- Witness for C2: the symmetric triangle over 3 nodes. -/
theorem local_triangles_match_spec_witness :
    ValidCSR 3 [1, 2, 0, 2, 0, 1] [0, 2, 4, 6] ∧
      _count_number_local_triangles [1, 2, 0, 2, 0, 1] [0, 2, 4, 6] =
        (List.range 3).map (localCount [1, 2, 0, 2, 0, 1] [0, 2, 4, 6]) :=
  ⟨by decide,
    local_triangles_match_spec [1, 2, 0, 2, 0, 1] [0, 2, 4, 6] 3 (by decide)⟩

/-- C3: on the undirected triangle `0-1, 1-2, 2-0` (each edge present in
both directions, no other edges, no self-loops),
`_count_number_local_triangles` returns 2 for each of the three nodes. -/
theorem local_triangles_on_triangle :
    _count_number_local_triangles [1, 2, 0, 2, 0, 1] [0, 2, 4, 6] =
      [2, 2, 2] := by decide

/-- C4: on the directed 3-cycle `0→1→2→0` (no other edges), given as
transpose-consistent out- and in-CSR structures, every node has
cycle-triangle count 1 and out-, in- and middleman-triangle count 0
(return order of the code: out, in, cycle, middleman). -/
theorem directed_motifs_on_three_cycle :
    _count_number_triangles_directed [1, 2, 0] [0, 1, 2, 3]
        [2, 0, 1] [0, 1, 2, 3] =
      ([0, 0, 0], [0, 0, 0], [1, 1, 1], [0, 0, 0]) := by decide

/-- C7: both counters are deterministic functions of their inputs and
insensitive to how the node range is scheduled: any commit order of the
per-node iterations that reaches every node id (in particular, any
partition of the range across workers, and any repetition of the run)
yields exactly the output of the pure sequential functions. -/
theorem counters_schedule_independent
    (indices indptr out_indices out_indptr in_indices in_indptr : List ℕ)
    (ord ord₂ : List ℕ)
    (h : ∀ v, v < indptr.length - 1 → v ∈ ord)
    (h₂ : ∀ v, v < out_indptr.length - 1 → v ∈ ord₂) :
    (localRunOn indices indptr ord).result =
      _count_number_local_triangles indices indptr ∧
    (directedRunOn out_indices out_indptr in_indices in_indptr
        ord₂).out_triangles =
      (_count_number_triangles_directed out_indices out_indptr
        in_indices in_indptr).1 ∧
    (directedRunOn out_indices out_indptr in_indices in_indptr
        ord₂).in_triangles =
      (_count_number_triangles_directed out_indices out_indptr
        in_indices in_indptr).2.1 ∧
    (directedRunOn out_indices out_indptr in_indices in_indptr
        ord₂).cycle_triangles =
      (_count_number_triangles_directed out_indices out_indptr
        in_indices in_indptr).2.2.1 ∧
    (directedRunOn out_indices out_indptr in_indices in_indptr
        ord₂).middleman_triangles =
      (_count_number_triangles_directed out_indices out_indptr
        in_indices in_indptr).2.2.2 := by
  unfold localRunOn directedRunOn
  rw [foldl_localStep, foldl_directedStep]
  refine ⟨?_, ?_, ?_, ?_, ?_⟩ <;>
    exact runSchedule_covers _ _ 0 _ (by assumption)

/-- Witness for C7: the 3-node cycle graphs, with the nodes committed in
the orders `[2, 0, 1]` and `[1, 2, 0, 2]`. -/
theorem counters_schedule_independent_witness :
    (∀ v, v < List.length [0, 2, 4, 6] - 1 → v ∈ [2, 0, 1]) ∧
    (∀ v, v < List.length [0, 1, 2, 3] - 1 → v ∈ [1, 2, 0, 2]) ∧
    ((localRunOn [1, 2, 0, 2, 0, 1] [0, 2, 4, 6] [2, 0, 1]).result =
      _count_number_local_triangles [1, 2, 0, 2, 0, 1] [0, 2, 4, 6] ∧
    (directedRunOn [1, 2, 0] [0, 1, 2, 3] [2, 0, 1] [0, 1, 2, 3]
        [1, 2, 0, 2]).out_triangles =
      (_count_number_triangles_directed [1, 2, 0] [0, 1, 2, 3]
        [2, 0, 1] [0, 1, 2, 3]).1 ∧
    (directedRunOn [1, 2, 0] [0, 1, 2, 3] [2, 0, 1] [0, 1, 2, 3]
        [1, 2, 0, 2]).in_triangles =
      (_count_number_triangles_directed [1, 2, 0] [0, 1, 2, 3]
        [2, 0, 1] [0, 1, 2, 3]).2.1 ∧
    (directedRunOn [1, 2, 0] [0, 1, 2, 3] [2, 0, 1] [0, 1, 2, 3]
        [1, 2, 0, 2]).cycle_triangles =
      (_count_number_triangles_directed [1, 2, 0] [0, 1, 2, 3]
        [2, 0, 1] [0, 1, 2, 3]).2.2.1 ∧
    (directedRunOn [1, 2, 0] [0, 1, 2, 3] [2, 0, 1] [0, 1, 2, 3]
        [1, 2, 0, 2]).middleman_triangles =
      (_count_number_triangles_directed [1, 2, 0] [0, 1, 2, 3]
        [2, 0, 1] [0, 1, 2, 3]).2.2.2) :=
  ⟨by decide, by decide,
    counters_schedule_independent [1, 2, 0, 2, 0, 1] [0, 2, 4, 6]
      [1, 2, 0] [0, 1, 2, 3] [2, 0, 1] [0, 1, 2, 3] [2, 0, 1] [1, 2, 0, 2]
      (by decide) (by decide)⟩

/-- C8: run as state machines that carry the borrowed input arrays, both
counters leave every input array unchanged, and their result buffers equal
the pure sequential functions of the inputs alone — so calls share no
state and repeated calls on the same inputs return identical arrays. -/
theorem counters_pure
    (indices indptr out_indices out_indptr in_indices in_indptr : List ℕ) :
    (localRun indices indptr).indices = indices ∧
    (localRun indices indptr).indptr = indptr ∧
    (localRun indices indptr).result =
      _count_number_local_triangles indices indptr ∧
    (directedRun out_indices out_indptr in_indices in_indptr).out_indices =
      out_indices ∧
    (directedRun out_indices out_indptr in_indices in_indptr).out_indptr =
      out_indptr ∧
    (directedRun out_indices out_indptr in_indices in_indptr).in_indices =
      in_indices ∧
    (directedRun out_indices out_indptr in_indices in_indptr).in_indptr =
      in_indptr ∧
    (directedRun out_indices out_indptr in_indices in_indptr).out_triangles =
      (_count_number_triangles_directed out_indices out_indptr
        in_indices in_indptr).1 ∧
    (directedRun out_indices out_indptr in_indices in_indptr).in_triangles =
      (_count_number_triangles_directed out_indices out_indptr
        in_indices in_indptr).2.1 ∧
    (directedRun out_indices out_indptr in_indices
        in_indptr).cycle_triangles =
      (_count_number_triangles_directed out_indices out_indptr
        in_indices in_indptr).2.2.1 ∧
    (directedRun out_indices out_indptr in_indices
        in_indptr).middleman_triangles =
      (_count_number_triangles_directed out_indices out_indptr
        in_indices in_indptr).2.2.2 := by
  unfold directedRun localRun localRunOn directedRunOn
  rw [foldl_localStep, foldl_directedStep]
  refine ⟨rfl, rfl, ?_, rfl, rfl, rfl, rfl, ?_, ?_, ?_, ?_⟩ <;>
    exact runSchedule_covers _ _ 0 _ (fun v hv => List.mem_range.mpr hv)

/-! ## Double-counting lemmas for the out/in swap symmetry -/

lemma countP_mem_finset (S : Finset ℕ) :
    ∀ (l : List ℕ),
      l.countP (fun x => decide (x ∈ S)) = Finset.sum S fun x => l.count x
  | [] => by simp
  | a :: l => by
    rw [List.countP_cons, countP_mem_finset S l]
    by_cases h : a ∈ S <;>
      simp [List.count_cons, Finset.sum_add_distrib, Finset.sum_ite_eq', h]

lemma countP_ne_mem_finset (v : ℕ) (S : Finset ℕ) (l : List ℕ) :
    l.countP (fun x => !decide (x = v) && decide (x ∈ S)) =
      Finset.sum (S.erase v) fun x => l.count x := by
  rw [← countP_mem_finset]
  refine List.countP_congr fun x _ => ?_
  by_cases hxv : x = v <;> by_cases hxS : x ∈ S <;>
    simp [Finset.mem_erase, hxv, hxS]

lemma motifCount_eq_sum (out_indices out_indptr : List ℕ) (v : ℕ)
    (outer member : Finset ℕ) :
    motifCount out_indices out_indptr v outer member =
      Finset.sum outer fun w => Finset.sum (member.erase v) fun x =>
        (get_neigh w out_indices out_indptr).count x := by
  unfold motifCount
  exact Finset.sum_congr rfl fun w _ => countP_ne_mem_finset v member _

/-- Core of the swap symmetry: on a transpose-consistent pair, a motif
count computed over the in-CSR slices equals the motif count with the two
egonet roles exchanged computed over the out-CSR slices, provided the
counted node is in neither egonet (no self-loop). -/
lemma motifCount_swap (out_indices out_indptr in_indices in_indptr : List ℕ)
    (N v : ℕ) (P Q : Finset ℕ)
    (hP : ∀ x ∈ P, x < N) (hQ : ∀ x ∈ Q, x < N)
    (htr : ∀ a, a < N → ∀ b, b < N →
      (get_neigh a in_indices in_indptr).count b =
        (get_neigh b out_indices out_indptr).count a)
    (hvP : v ∉ P) (hvQ : v ∉ Q) :
    motifCount in_indices in_indptr v P Q =
      motifCount out_indices out_indptr v Q P := by
  rw [motifCount_eq_sum, motifCount_eq_sum,
    Finset.erase_eq_of_not_mem hvQ, Finset.erase_eq_of_not_mem hvP,
    Finset.sum_comm]
  refine Finset.sum_congr rfl fun a ha => Finset.sum_congr rfl fun b hb => ?_
  exact htr b (hP b hb) a (hQ a ha)

/-! ## Disjoint-union transport lemmas -/

lemma list_toFinset_map (l : List ℕ) (f : ℕ → ℕ) :
    (l.map f).toFinset = l.toFinset.image f := by
  ext x
  simp

lemma mem_image_add (S : Finset ℕ) (N x : ℕ) :
    x + N ∈ S.image (· + N) ↔ x ∈ S := by
  rw [Finset.mem_image]
  constructor
  · rintro ⟨y, hy, he⟩
    have hyx : y = x := by omega
    rwa [hyx] at hy
  · intro h
    exact ⟨x, h, rfl⟩

lemma unionIndptr_getD_left (indptr : List ℕ) (E N v : ℕ)
    (hlen : indptr.length = N + 1) (hv : v ≤ N) :
    (unionIndptr indptr E).getD v 0 = indptr.getD v 0 :=
  getD_append_left _ _ v (by omega)

lemma unionIndptr_getD_right (indptr : List ℕ) (E N j : ℕ)
    (hlen : indptr.length = N + 1) (h0 : indptr.getD 0 0 = 0)
    (hlast : indptr.getD N 0 = E) (hj : j ≤ N) :
    (unionIndptr indptr E).getD (N + j) 0 = E + indptr.getD j 0 := by
  rcases Nat.eq_zero_or_pos j with rfl | hpos
  · rw [Nat.add_zero, unionIndptr_getD_left indptr E N N hlen (Nat.le_refl N),
      hlast, h0]
    omega
  · have hjlen : j < indptr.length := by omega
    unfold unionIndptr
    rw [List.getD_eq_getElem?_getD,
      List.getElem?_append_right (by rw [hlen]; omega)]
    have hidx : N + j - indptr.length = j - 1 := by omega
    rw [hidx, List.getElem?_map, List.getElem?_drop]
    have h1j : 1 + (j - 1) = j := by omega
    rw [h1j, List.getElem?_eq_getElem hjlen,
      List.getD_eq_getElem indptr 0 hjlen]
    simp only [Option.map_some', Option.getD_some]
    omega

lemma union_get_neigh_left (indices indptr : List ℕ) (N v : ℕ)
    (hlen : indptr.length = N + 1) (hp : List.Pairwise (· ≤ ·) indptr)
    (hlast : indptr.getD N 0 = indices.length) (hv : v < N) :
    get_neigh v (unionIndices indices N)
        (unionIndptr indptr indices.length) =
      get_neigh v indices indptr := by
  unfold get_neigh unionIndices
  rw [unionIndptr_getD_left indptr indices.length N v hlen (by omega),
    unionIndptr_getD_left indptr indices.length N (v + 1) hlen (by omega)]
  refine take_drop_append _ _ _ _ ?_
  have h1 := indptr_le_length indptr indices N hlen hp hlast (k := v)
    (by omega)
  have h2 := indptr_le_length indptr indices N hlen hp hlast (k := v + 1)
    (by omega)
  omega

lemma union_get_neigh_right (indices indptr : List ℕ) (N j : ℕ)
    (hlen : indptr.length = N + 1) (h0 : indptr.getD 0 0 = 0)
    (hlast : indptr.getD N 0 = indices.length) (hj : j < N) :
    get_neigh (N + j) (unionIndices indices N)
        (unionIndptr indptr indices.length) =
      (get_neigh j indices indptr).map (· + N) := by
  unfold get_neigh unionIndices
  rw [Nat.add_assoc N j 1,
    unionIndptr_getD_right indptr indices.length N j hlen h0 hlast
      (by omega),
    unionIndptr_getD_right indptr indices.length N (j + 1) hlen h0 hlast
      (by omega)]
  have hsub : indices.length + indptr.getD (j + 1) 0 -
      (indices.length + indptr.getD j 0) =
      indptr.getD (j + 1) 0 - indptr.getD j 0 := by omega
  rw [hsub, List.drop_append_eq_append_drop]
  have hnil : indices.drop (indices.length + indptr.getD j 0) = [] :=
    List.drop_eq_nil_of_le (by omega)
  have hsubE : indices.length + indptr.getD j 0 - indices.length =
      indptr.getD j 0 := by omega
  rw [hnil, List.nil_append, hsubE, ← List.map_drop, ← List.map_take]

lemma motifCount_union_left (indices indptr : List ℕ) (N v : ℕ)
    (hlen : indptr.length = N + 1) (hp : List.Pairwise (· ≤ ·) indptr)
    (hlast : indptr.getD N 0 = indices.length) (A B : Finset ℕ)
    (hA : ∀ x ∈ A, x < N) :
    motifCount (unionIndices indices N) (unionIndptr indptr indices.length)
        v A B =
      motifCount indices indptr v A B := by
  unfold motifCount
  refine Finset.sum_congr rfl fun w hw => ?_
  rw [union_get_neigh_left indices indptr N w hlen hp hlast (hA w hw)]

lemma motifCount_union_right (indices indptr : List ℕ) (N j : ℕ)
    (hlen : indptr.length = N + 1) (h0 : indptr.getD 0 0 = 0)
    (hlast : indptr.getD N 0 = indices.length) (A B : Finset ℕ)
    (hA : ∀ x ∈ A, x < N) :
    motifCount (unionIndices indices N) (unionIndptr indptr indices.length)
        (N + j) (A.image (· + N)) (B.image (· + N)) =
      motifCount indices indptr j A B := by
  unfold motifCount
  rw [Finset.sum_image (fun x _ y _ h => by omega)]
  refine Finset.sum_congr rfl fun w hw => ?_
  rw [Nat.add_comm w N,
    union_get_neigh_right indices indptr N w hlen h0 hlast (hA w hw),
    List.countP_map]
  refine List.countP_congr fun x _ => ?_
  have h1 : (x + N = N + j) ↔ (x = j) := by omega
  have h2 := mem_image_add B N x
  simp [Function.comp, h1, h2]

lemma nodeLocal_union_left (indices indptr : List ℕ) (N v : ℕ)
    (hlen : indptr.length = N + 1) (hp : List.Pairwise (· ≤ ·) indptr)
    (hr : ∀ i ∈ indices, i < N)
    (hlast : indptr.getD N 0 = indices.length) (hv : v < N) :
    nodeLocal (unionIndices indices N) (unionIndptr indptr indices.length)
        v =
      nodeLocal indices indptr v := by
  rw [nodeLocal_eq, nodeLocal_eq]
  unfold localCount
  rw [union_get_neigh_left indices indptr N v hlen hp hlast hv]
  refine Finset.sum_congr rfl fun u hu => ?_
  rw [union_get_neigh_left indices indptr N u hlen hp hlast
    (hr u (get_neigh_subset v indices indptr u (List.mem_toFinset.mp hu)))]

lemma nodeLocal_union_right (indices indptr : List ℕ) (N j : ℕ)
    (hlen : indptr.length = N + 1)
    (hr : ∀ i ∈ indices, i < N) (h0 : indptr.getD 0 0 = 0)
    (hlast : indptr.getD N 0 = indices.length) (hj : j < N) :
    nodeLocal (unionIndices indices N) (unionIndptr indptr indices.length)
        (N + j) =
      nodeLocal indices indptr j := by
  rw [nodeLocal_eq, nodeLocal_eq]
  unfold localCount
  rw [union_get_neigh_right indices indptr N j hlen h0 hlast hj,
    list_toFinset_map,
    Finset.sum_image (fun x _ y _ h => by omega)]
  refine Finset.sum_congr rfl fun u hu => ?_
  have huN : u < N :=
    hr u (get_neigh_subset j indices indptr u (List.mem_toFinset.mp hu))
  rw [Nat.add_comm u N,
    union_get_neigh_right indices indptr N u hlen h0 hlast huN,
    List.countP_map]
  refine List.countP_congr fun x _ => ?_
  have h2 := mem_image_add (get_neigh j indices indptr).toFinset N x
  simp [Function.comp, h2]

lemma nodeDirected_union_left
    (out_indices out_indptr in_indices in_indptr : List ℕ) (N v : ℕ)
    (hleno : out_indptr.length = N + 1)
    (hpo : List.Pairwise (· ≤ ·) out_indptr)
    (hro : ∀ i ∈ out_indices, i < N)
    (hlasto : out_indptr.getD N 0 = out_indices.length)
    (hleni : in_indptr.length = N + 1)
    (hpi : List.Pairwise (· ≤ ·) in_indptr)
    (hri : ∀ i ∈ in_indices, i < N)
    (hlasti : in_indptr.getD N 0 = in_indices.length) (hv : v < N) :
    nodeDirected (unionIndices out_indices N)
        (unionIndptr out_indptr out_indices.length)
        (unionIndices in_indices N)
        (unionIndptr in_indptr in_indices.length) v =
      nodeDirected out_indices out_indptr in_indices in_indptr v := by
  rw [nodeDirected_eq, nodeDirected_eq]
  have hoe : out_egonet (unionIndices out_indices N)
      (unionIndptr out_indptr out_indices.length) v =
      out_egonet out_indices out_indptr v := by
    unfold out_egonet
    rw [union_get_neigh_left out_indices out_indptr N v hleno hpo hlasto hv]
  have hie : in_egonet (unionIndices in_indices N)
      (unionIndptr in_indptr in_indices.length) v =
      in_egonet in_indices in_indptr v := by
    unfold in_egonet
    rw [union_get_neigh_left in_indices in_indptr N v hleni hpi hlasti hv]
  rw [hoe, hie]
  have hA : ∀ x ∈ out_egonet out_indices out_indptr v, x < N := fun x hx =>
    hro x (get_neigh_subset v out_indices out_indptr x
      (List.mem_toFinset.mp hx))
  have hB : ∀ x ∈ in_egonet in_indices in_indptr v, x < N := fun x hx =>
    hri x (get_neigh_subset v in_indices in_indptr x
      (List.mem_toFinset.mp hx))
  simp only [Prod.mk.injEq]
  exact ⟨motifCount_union_left out_indices out_indptr N v hleno hpo hlasto
      _ _ hA,
    motifCount_union_left out_indices out_indptr N v hleno hpo hlasto
      _ _ hB,
    motifCount_union_left out_indices out_indptr N v hleno hpo hlasto
      _ _ hA,
    motifCount_union_left out_indices out_indptr N v hleno hpo hlasto
      _ _ hB⟩

lemma nodeDirected_union_right
    (out_indices out_indptr in_indices in_indptr : List ℕ) (N j : ℕ)
    (hleno : out_indptr.length = N + 1)
    (hro : ∀ i ∈ out_indices, i < N)
    (h0o : out_indptr.getD 0 0 = 0)
    (hlasto : out_indptr.getD N 0 = out_indices.length)
    (hleni : in_indptr.length = N + 1)
    (hri : ∀ i ∈ in_indices, i < N)
    (h0i : in_indptr.getD 0 0 = 0)
    (hlasti : in_indptr.getD N 0 = in_indices.length) (hj : j < N) :
    nodeDirected (unionIndices out_indices N)
        (unionIndptr out_indptr out_indices.length)
        (unionIndices in_indices N)
        (unionIndptr in_indptr in_indices.length) (N + j) =
      nodeDirected out_indices out_indptr in_indices in_indptr j := by
  rw [nodeDirected_eq, nodeDirected_eq]
  have hoe : out_egonet (unionIndices out_indices N)
      (unionIndptr out_indptr out_indices.length) (N + j) =
      (out_egonet out_indices out_indptr j).image (· + N) := by
    unfold out_egonet
    rw [union_get_neigh_right out_indices out_indptr N j hleno h0o hlasto
      hj, list_toFinset_map]
  have hie : in_egonet (unionIndices in_indices N)
      (unionIndptr in_indptr in_indices.length) (N + j) =
      (in_egonet in_indices in_indptr j).image (· + N) := by
    unfold in_egonet
    rw [union_get_neigh_right in_indices in_indptr N j hleni h0i hlasti
      hj, list_toFinset_map]
  rw [hoe, hie]
  have hA : ∀ x ∈ out_egonet out_indices out_indptr j, x < N := fun x hx =>
    hro x (get_neigh_subset j out_indices out_indptr x
      (List.mem_toFinset.mp hx))
  have hB : ∀ x ∈ in_egonet in_indices in_indptr j, x < N := fun x hx =>
    hri x (get_neigh_subset j in_indices in_indptr x
      (List.mem_toFinset.mp hx))
  simp only [Prod.mk.injEq]
  exact ⟨motifCount_union_right out_indices out_indptr N j hleno h0o hlasto
      _ _ hA,
    motifCount_union_right out_indices out_indptr N j hleno h0o hlasto
      _ _ hB,
    motifCount_union_right out_indices out_indptr N j hleno h0o hlasto
      _ _ hA,
    motifCount_union_right out_indices out_indptr N j hleno h0o hlasto
      _ _ hB⟩

/-- C5: running either counter on the disjoint union of two copies of a
coherent CSR graph (the second copy's node ids offset by the node count,
no edge joining the copies) yields exactly the concatenation of the
result arrays of running that counter on the graph alone — each node's
result depends only on its own copy, with no cross-node interference. -/
theorem union_of_copies_concatenates
    (indices indptr out_indices out_indptr in_indices in_indptr : List ℕ)
    (N M : ℕ)
    (hc : CoherentCSR N indices indptr)
    (hco : CoherentCSR M out_indices out_indptr)
    (hci : CoherentCSR M in_indices in_indptr) :
    _count_number_local_triangles (unionIndices indices N)
        (unionIndptr indptr indices.length) =
      _count_number_local_triangles indices indptr ++
        _count_number_local_triangles indices indptr ∧
    _count_number_triangles_directed (unionIndices out_indices M)
        (unionIndptr out_indptr out_indices.length)
        (unionIndices in_indices M)
        (unionIndptr in_indptr in_indices.length) =
      ((_count_number_triangles_directed out_indices out_indptr in_indices
          in_indptr).1 ++
        (_count_number_triangles_directed out_indices out_indptr in_indices
          in_indptr).1,
       (_count_number_triangles_directed out_indices out_indptr in_indices
          in_indptr).2.1 ++
        (_count_number_triangles_directed out_indices out_indptr in_indices
          in_indptr).2.1,
       (_count_number_triangles_directed out_indices out_indptr in_indices
          in_indptr).2.2.1 ++
        (_count_number_triangles_directed out_indices out_indptr in_indices
          in_indptr).2.2.1,
       (_count_number_triangles_directed out_indices out_indptr in_indices
          in_indptr).2.2.2 ++
        (_count_number_triangles_directed out_indices out_indptr in_indices
          in_indptr).2.2.2) := by
  obtain ⟨⟨hlen, hp, hr⟩, h0, hlast⟩ := hc
  obtain ⟨⟨hleno, hpo, hro⟩, h0o, hlasto⟩ := hco
  obtain ⟨⟨hleni, hpi, hri⟩, h0i, hlasti⟩ := hci
  have hulen : (unionIndptr indptr indices.length).length = 2 * N + 1 := by
    unfold unionIndptr
    rw [List.length_append, List.length_map, List.length_drop, hlen]
    omega
  have hulen2 : (unionIndptr out_indptr out_indices.length).length =
      2 * M + 1 := by
    unfold unionIndptr
    rw [List.length_append, List.length_map, List.length_drop, hleno]
    omega
  constructor
  · unfold _count_number_local_triangles
    rw [hulen, hlen]
    have h2n : 2 * N + 1 - 1 = N + N := by omega
    have hn : N + 1 - 1 = N := by omega
    rw [h2n, hn, List.range_add, List.map_append, List.map_map]
    congr 1
    · exact List.map_congr_left fun v hv =>
        nodeLocal_union_left indices indptr N v hlen hp hr hlast
          (List.mem_range.mp hv)
    · exact List.map_congr_left fun j hj => by
        simp only [Function.comp_apply]
        rw [nodeLocal_union_right indices indptr N j hlen hr h0 hlast
          (List.mem_range.mp hj)]
  · unfold _count_number_triangles_directed
    rw [hulen2, hleno]
    simp only [Prod.mk.injEq]
    have h2m : 2 * M + 1 - 1 = M + M := by omega
    have hm : M + 1 - 1 = M := by omega
    rw [h2m, hm]
    refine ⟨?_, ?_, ?_, ?_⟩ <;>
      (rw [List.range_add, List.map_append, List.map_map]
       congr 1
       · exact List.map_congr_left fun v hv => by
           rw [nodeDirected_union_left out_indices out_indptr in_indices
             in_indptr M v hleno hpo hro hlasto hleni hpi hri hlasti
             (List.mem_range.mp hv)]
       · exact List.map_congr_left fun j hj => by
           simp only [Function.comp_apply]
           rw [nodeDirected_union_right out_indices out_indptr in_indices
             in_indptr M j hleno hro h0o hlasto hleni hri h0i hlasti
             (List.mem_range.mp hj)])

/-- Witness for C5: the symmetric triangle for the local counter and the
directed 3-cycle (with its transpose) for the motif counter. -/
theorem union_of_copies_concatenates_witness :
    CoherentCSR 3 [1, 2, 0, 2, 0, 1] [0, 2, 4, 6] ∧
    CoherentCSR 3 [1, 2, 0] [0, 1, 2, 3] ∧
    CoherentCSR 3 [2, 0, 1] [0, 1, 2, 3] ∧
    (_count_number_local_triangles
        (unionIndices [1, 2, 0, 2, 0, 1] 3)
        (unionIndptr [0, 2, 4, 6] (List.length [1, 2, 0, 2, 0, 1])) =
      _count_number_local_triangles [1, 2, 0, 2, 0, 1] [0, 2, 4, 6] ++
        _count_number_local_triangles [1, 2, 0, 2, 0, 1] [0, 2, 4, 6] ∧
    _count_number_triangles_directed (unionIndices [1, 2, 0] 3)
        (unionIndptr [0, 1, 2, 3] (List.length [1, 2, 0]))
        (unionIndices [2, 0, 1] 3)
        (unionIndptr [0, 1, 2, 3] (List.length [2, 0, 1])) =
      ((_count_number_triangles_directed [1, 2, 0] [0, 1, 2, 3] [2, 0, 1]
          [0, 1, 2, 3]).1 ++
        (_count_number_triangles_directed [1, 2, 0] [0, 1, 2, 3] [2, 0, 1]
          [0, 1, 2, 3]).1,
       (_count_number_triangles_directed [1, 2, 0] [0, 1, 2, 3] [2, 0, 1]
          [0, 1, 2, 3]).2.1 ++
        (_count_number_triangles_directed [1, 2, 0] [0, 1, 2, 3] [2, 0, 1]
          [0, 1, 2, 3]).2.1,
       (_count_number_triangles_directed [1, 2, 0] [0, 1, 2, 3] [2, 0, 1]
          [0, 1, 2, 3]).2.2.1 ++
        (_count_number_triangles_directed [1, 2, 0] [0, 1, 2, 3] [2, 0, 1]
          [0, 1, 2, 3]).2.2.1,
       (_count_number_triangles_directed [1, 2, 0] [0, 1, 2, 3] [2, 0, 1]
          [0, 1, 2, 3]).2.2.2 ++
        (_count_number_triangles_directed [1, 2, 0] [0, 1, 2, 3] [2, 0, 1]
          [0, 1, 2, 3]).2.2.2)) :=
  ⟨by decide, by decide, by decide,
    union_of_copies_concatenates [1, 2, 0, 2, 0, 1] [0, 2, 4, 6]
      [1, 2, 0] [0, 1, 2, 3] [2, 0, 1] [0, 1, 2, 3] 3 3
      (by decide) (by decide) (by decide)⟩

/-- C6: for a self-loop-free graph given as exact-transpose out/in CSR
structures over `N` nodes, calling `_count_number_triangles_directed` with
the out-CSR and in-CSR argument pairs swapped exchanges the out-triangle
and in-triangle arrays and leaves the cycle-triangle array unchanged. -/
theorem swapped_arguments_exchange_out_in
    (out_indices out_indptr in_indices in_indptr : List ℕ) (N : ℕ)
    (ho : ValidCSR N out_indices out_indptr)
    (hi : ValidCSR N in_indices in_indptr)
    (htr : ∀ a, a < N → ∀ b, b < N →
      (get_neigh a in_indices in_indptr).count b =
        (get_neigh b out_indices out_indptr).count a)
    (hsl : ∀ v, v < N → (get_neigh v out_indices out_indptr).count v = 0) :
    (_count_number_triangles_directed in_indices in_indptr
        out_indices out_indptr).1 =
      (_count_number_triangles_directed out_indices out_indptr
        in_indices in_indptr).2.1 ∧
    (_count_number_triangles_directed in_indices in_indptr
        out_indices out_indptr).2.1 =
      (_count_number_triangles_directed out_indices out_indptr
        in_indices in_indptr).1 ∧
    (_count_number_triangles_directed in_indices in_indptr
        out_indices out_indptr).2.2.1 =
      (_count_number_triangles_directed out_indices out_indptr
        in_indices in_indptr).2.2.1 := by
  obtain ⟨hleno, -, hro⟩ := ho
  obtain ⟨hleni, -, hri⟩ := hi
  have key : ∀ v, v < N →
      (nodeDirected in_indices in_indptr out_indices out_indptr v).1 =
        (nodeDirected out_indices out_indptr in_indices in_indptr v).2.1 ∧
      (nodeDirected in_indices in_indptr out_indices out_indptr v).2.1 =
        (nodeDirected out_indices out_indptr in_indices in_indptr v).1 ∧
      (nodeDirected in_indices in_indptr out_indices out_indptr v).2.2.1 =
        (nodeDirected out_indices out_indptr in_indices
          in_indptr v).2.2.1 := by
    intro v hv
    have hA : ∀ x ∈ (get_neigh v out_indices out_indptr).toFinset, x < N :=
      fun x hx => hro x (get_neigh_subset v _ _ x (List.mem_toFinset.mp hx))
    have hB : ∀ x ∈ (get_neigh v in_indices in_indptr).toFinset, x < N :=
      fun x hx => hri x (get_neigh_subset v _ _ x (List.mem_toFinset.mp hx))
    have hvA : v ∉ (get_neigh v out_indices out_indptr).toFinset := by
      rw [List.mem_toFinset]
      exact List.count_eq_zero.mp (hsl v hv)
    have hvB : v ∉ (get_neigh v in_indices in_indptr).toFinset := by
      rw [List.mem_toFinset]
      refine List.count_eq_zero.mp ?_
      rw [htr v hv v hv]
      exact hsl v hv
    rw [nodeDirected_eq, nodeDirected_eq]
    simp only [out_egonet, in_egonet]
    exact ⟨motifCount_swap _ _ _ _ N v _ _ hB hB htr hvB hvB,
      motifCount_swap _ _ _ _ N v _ _ hA hA htr hvA hvA,
      motifCount_swap _ _ _ _ N v _ _ hB hA htr hvB hvA⟩
  unfold _count_number_triangles_directed
  rw [hleno, hleni]
  simp only [Nat.add_sub_cancel]
  refine ⟨?_, ?_, ?_⟩
  · exact List.map_congr_left fun v hv => (key v (List.mem_range.mp hv)).1
  · exact List.map_congr_left fun v hv => (key v (List.mem_range.mp hv)).2.1
  · exact List.map_congr_left fun v hv => (key v (List.mem_range.mp hv)).2.2

/-- Witness for C6: the non-symmetric graph `0→1, 0→2, 1→2` with its
transpose in-CSR. -/
theorem swapped_arguments_exchange_out_in_witness :
    ValidCSR 3 [1, 2, 2] [0, 2, 3, 3] ∧ ValidCSR 3 [0, 0, 1] [0, 0, 1, 3] ∧
      (∀ a, a < 3 → ∀ b, b < 3 →
        (get_neigh a [0, 0, 1] [0, 0, 1, 3]).count b =
          (get_neigh b [1, 2, 2] [0, 2, 3, 3]).count a) ∧
      (∀ v, v < 3 → (get_neigh v [1, 2, 2] [0, 2, 3, 3]).count v = 0) ∧
      ((_count_number_triangles_directed [0, 0, 1] [0, 0, 1, 3]
          [1, 2, 2] [0, 2, 3, 3]).1 =
        (_count_number_triangles_directed [1, 2, 2] [0, 2, 3, 3]
          [0, 0, 1] [0, 0, 1, 3]).2.1 ∧
      (_count_number_triangles_directed [0, 0, 1] [0, 0, 1, 3]
          [1, 2, 2] [0, 2, 3, 3]).2.1 =
        (_count_number_triangles_directed [1, 2, 2] [0, 2, 3, 3]
          [0, 0, 1] [0, 0, 1, 3]).1 ∧
      (_count_number_triangles_directed [0, 0, 1] [0, 0, 1, 3]
          [1, 2, 2] [0, 2, 3, 3]).2.2.1 =
        (_count_number_triangles_directed [1, 2, 2] [0, 2, 3, 3]
          [0, 0, 1] [0, 0, 1, 3]).2.2.1) :=
  ⟨by decide, by decide, by decide, by decide,
    swapped_arguments_exchange_out_in [1, 2, 2] [0, 2, 3, 3]
      [0, 0, 1] [0, 0, 1, 3] 3 (by decide) (by decide) (by decide)
      (by decide)⟩

/-- C9: on any two individually well-formed CSR structures over the same
`N` nodes — with no requirement that they be transposes of one another —
`_count_number_triangles_directed` returns four complete length-`N`
arrays, and every index used by its loops is in bounds (node slots `v` and
`v + 1` of both indptr arrays, and slots `w`/`w + 1` of the out-indptr
array for every `w` drawn from either egonet), so no access can fail. -/
theorem directed_motifs_total_without_transpose
    (out_indices out_indptr in_indices in_indptr : List ℕ) (N : ℕ)
    (ho : ValidCSR N out_indices out_indptr)
    (hi : ValidCSR N in_indices in_indptr)
    (_hlo : out_indptr.getD N 0 = out_indices.length)
    (_hli : in_indptr.getD N 0 = in_indices.length) :
    (_count_number_triangles_directed out_indices out_indptr
        in_indices in_indptr).1.length = N ∧
    (_count_number_triangles_directed out_indices out_indptr
        in_indices in_indptr).2.1.length = N ∧
    (_count_number_triangles_directed out_indices out_indptr
        in_indices in_indptr).2.2.1.length = N ∧
    (_count_number_triangles_directed out_indices out_indptr
        in_indices in_indptr).2.2.2.length = N ∧
    ∀ v, v < N →
      v + 1 < out_indptr.length ∧ v + 1 < in_indptr.length ∧
      (∀ w ∈ get_neigh v out_indices out_indptr,
        w + 1 < out_indptr.length) ∧
      (∀ y ∈ get_neigh v in_indices in_indptr,
        y + 1 < out_indptr.length) := by
  obtain ⟨hleno, -, hro⟩ := ho
  obtain ⟨hleni, -, hri⟩ := hi
  refine ⟨?_, ?_, ?_, ?_, ?_⟩
  · simp [_count_number_triangles_directed, hleno]
  · simp [_count_number_triangles_directed, hleno]
  · simp [_count_number_triangles_directed, hleno]
  · simp [_count_number_triangles_directed, hleno]
  · intro v hv
    refine ⟨by omega, by omega, ?_, ?_⟩
    · intro w hw
      have := hro w (get_neigh_subset v out_indices out_indptr w hw)
      omega
    · intro y hy
      have := hri y (get_neigh_subset v in_indices in_indptr y hy)
      omega

/-- Witness for C9: a pair of well-formed one-edge CSR structures over 2
nodes that are not transposes of each other (both claim the edge `0→1`),
on which the counter still returns four complete length-2 arrays. -/
theorem directed_motifs_total_without_transpose_witness :
    ValidCSR 2 [1] [0, 1, 1] ∧
      ((_count_number_triangles_directed [1] [0, 1, 1]
          [1] [0, 1, 1]).1.length = 2 ∧
       (_count_number_triangles_directed [1] [0, 1, 1]
          [1] [0, 1, 1]).2.1.length = 2 ∧
       (_count_number_triangles_directed [1] [0, 1, 1]
          [1] [0, 1, 1]).2.2.1.length = 2 ∧
       (_count_number_triangles_directed [1] [0, 1, 1]
          [1] [0, 1, 1]).2.2.2.length = 2 ∧
       ∀ v, v < 2 →
         v + 1 < List.length [0, 1, 1] ∧ v + 1 < List.length [0, 1, 1] ∧
         (∀ w ∈ get_neigh v [1] [0, 1, 1],
           w + 1 < List.length [0, 1, 1]) ∧
         (∀ y ∈ get_neigh v [1] [0, 1, 1],
           y + 1 < List.length [0, 1, 1])) :=
  ⟨by decide,
    directed_motifs_total_without_transpose [1] [0, 1, 1] [1] [0, 1, 1] 2
      (by decide) (by decide) (by decide) (by decide)⟩

/-- C10: the node count of `_count_number_triangles_directed` — the common
length of the four returned arrays and the iterated node range — comes
solely from `len(out_indptr) - 1`: the returned lengths equal
`out_indptr.length - 1` whatever the in-CSR arrays are, and extending a
well-formed in-CSR with extra rows (and extra index entries) beyond node
`N = len(out_indptr) - 1` leaves the result unchanged. -/
theorem directed_motifs_sized_by_out_indptr
    (out_indices out_indptr in_indices in_indptr extI extP : List ℕ)
    (N : ℕ) (hN : out_indptr.length - 1 = N)
    (hi : ValidCSR N in_indices in_indptr)
    (hlast : in_indptr.getD N 0 = in_indices.length) :
    ((_count_number_triangles_directed out_indices out_indptr
        (in_indices ++ extI) (in_indptr ++ extP)).1.length =
          out_indptr.length - 1 ∧
     (_count_number_triangles_directed out_indices out_indptr
        (in_indices ++ extI) (in_indptr ++ extP)).2.1.length =
          out_indptr.length - 1 ∧
     (_count_number_triangles_directed out_indices out_indptr
        (in_indices ++ extI) (in_indptr ++ extP)).2.2.1.length =
          out_indptr.length - 1 ∧
     (_count_number_triangles_directed out_indices out_indptr
        (in_indices ++ extI) (in_indptr ++ extP)).2.2.2.length =
          out_indptr.length - 1) ∧
    _count_number_triangles_directed out_indices out_indptr
        (in_indices ++ extI) (in_indptr ++ extP) =
      _count_number_triangles_directed out_indices out_indptr
        in_indices in_indptr := by
  obtain ⟨hlen, hp, -⟩ := hi
  have key : ∀ v ∈ List.range (out_indptr.length - 1),
      nodeDirected out_indices out_indptr (in_indices ++ extI)
        (in_indptr ++ extP) v =
      nodeDirected out_indices out_indptr in_indices in_indptr v := by
    intro v hv
    exact nodeDirected_congr_in out_indices out_indptr in_indices in_indptr
      _ _ v (get_neigh_append in_indices in_indptr extI extP N v hlen hp
        hlast (hN ▸ List.mem_range.mp hv))
  constructor
  · refine ⟨?_, ?_, ?_, ?_⟩ <;> simp [_count_number_triangles_directed]
  · unfold _count_number_triangles_directed
    simp only [Prod.mk.injEq]
    refine ⟨?_, ?_, ?_, ?_⟩ <;>
      exact List.map_congr_left fun v hv => by rw [key v hv]

/-- Witness for C10: a valid 2-node in-CSR extended by one extra row,
ignored by the counter sized from `out_indptr`. -/
theorem directed_motifs_sized_by_out_indptr_witness :
    List.length [0, 1, 1] - 1 = 2 ∧ ValidCSR 2 [1] [0, 1, 1] ∧
      List.getD [0, 1, 1] 2 0 = List.length [1] ∧
      (((_count_number_triangles_directed [1] [0, 1, 1]
          ([1] ++ [0, 1]) ([0, 1, 1] ++ [3])).1.length =
            List.length [0, 1, 1] - 1 ∧
        (_count_number_triangles_directed [1] [0, 1, 1]
          ([1] ++ [0, 1]) ([0, 1, 1] ++ [3])).2.1.length =
            List.length [0, 1, 1] - 1 ∧
        (_count_number_triangles_directed [1] [0, 1, 1]
          ([1] ++ [0, 1]) ([0, 1, 1] ++ [3])).2.2.1.length =
            List.length [0, 1, 1] - 1 ∧
        (_count_number_triangles_directed [1] [0, 1, 1]
          ([1] ++ [0, 1]) ([0, 1, 1] ++ [3])).2.2.2.length =
            List.length [0, 1, 1] - 1) ∧
       _count_number_triangles_directed [1] [0, 1, 1]
          ([1] ++ [0, 1]) ([0, 1, 1] ++ [3]) =
        _count_number_triangles_directed [1] [0, 1, 1] [1] [0, 1, 1]) :=
  ⟨by decide, by decide, by decide,
    directed_motifs_sized_by_out_indptr [1] [0, 1, 1] [1] [0, 1, 1]
      [0, 1] [3] 2 (by decide) (by decide) (by decide)⟩

end Structfeatures
